import Mathlib

/-!
Shallow embedding of the build-file synthesis engine of the bfg9000
repository: the POSIX shell quoting/splitting utilities
(`bfg9000/shell/posix.py`) and the ninja backend build-file IR and writer
(`bfg9000/backends/ninja/syntax.py`).

Python strings are modelled as `List Char` (`Str`); characters are ASCII in
every use the claims exercise, so the Python 2 `\w` character class is the
ASCII alphanumerics plus underscore.  Fallible operations return `Option` or
carry an explicit error component; Python methods that mutate `self` and may
raise are modelled as functions returning the successor state together with
an optional error, because a raised exception in Python does not roll back
mutations already performed by the call.
-/

set_option maxHeartbeats 1000000
set_option maxRecDepth 4000

abbrev Str : Type := List Char

/-- Converts a Lean string literal to the `List Char` model of Python strings. -/
def S (s : String) : Str := s.data

namespace Posix

/-! ### bfg9000/shell/posix.py -/

/-- The whitespace characters of the tokenizer (`shlex.whitespace`). -/
def isShWhite (c : Char) : Bool := c = ' ' || c = '\t' || c = '\r' || c = '\n'

/-- The quote characters of the tokenizer (`shlex.quotes`). -/
def isShQuote (c : Char) : Bool := c = '\'' || c = '"'

/-- The state machine of `shlex(s, posix=True)` with `commenters = ''`,
`escape = ''` and `whitespace_split = True`, as configured by `split`:
outside quotes, whitespace separates tokens and a quote character opens a
quoted section; inside a quoted section every character up to the matching
quote is taken literally.  `q` is the opening quote (`none` outside quotes),
`t` the token collected so far and `started` whether the current token has
begun (a quoted empty section yields an empty token).  An unterminated quote
is a tokenizer error (`none`). -/
def splitAux : List Char → Option Char → Str → Bool → Option (List Str)
  | [], some _, _, _ => none
  | [], none, t, started => some (if started then [t] else [])
  | c :: cs, some q, t, _ =>
    if c = q then splitAux cs none t true
    else splitAux cs (some q) (t ++ [c]) true
  | c :: cs, none, t, started =>
    if isShWhite c then
      if started then (splitAux cs none [] false).map (fun r => t :: r)
      else splitAux cs none [] false
    else if isShQuote c then splitAux cs (some c) t true
    else splitAux cs none (t ++ [c]) true

/-- `split(s)`: tokenize `s` with the POSIX-compatible lexer. -/
def split (s : Str) : Option (List Str) := splitAux s none [] false

/-- The safe character set: `_bad_chars` matches any character that is not a
word character (`A-Z a-z 0-9 _`, the Python 2 `\w` class) and not one of
`@ % + : , . -` or the forward slash.  A character is safe iff it does not
match `_bad_chars`. -/
def isSafeChar (c : Char) : Bool :=
  c.isAlphanum || c = '_' || c = '@' || c = '%' || c = '+' || c = ':' ||
    c = ',' || c = '.' || c = '/' || c = '-'

/-- `_bad_chars.search(s)` finds a match iff some character of `s` is unsafe. -/
def hasBadChar (s : Str) : Bool := s.any (fun c => !(isSafeChar c))

/-- `s.replace("'", "'\"'\"'")`: each single quote becomes the 5-character
POSIX re-quoting idiom. -/
def replaceQuote (s : Str) : Str :=
  (s.map (fun c => if c = '\'' then ['\'', '"', '\'', '"', '\''] else [c])).flatten

/-- `escape(s)`: empty strings and safe-only strings are returned unchanged
and need no quoting; otherwise single quotes are rewritten and the caller
must quote. -/
def escape (s : Str) : Str × Bool :=
  if s.isEmpty then (s, false)
  else if !(hasBadChar s) then (s, false)
  else (replaceQuote s, true)

/-- `quote_escaped(s, escaped)`: wrap in single quotes when `escaped`. -/
def quote_escaped (s : Str) (escaped : Bool) : Str :=
  if escaped then '\'' :: (s ++ ['\'']) else s

/-- `quote(s) = quote_escaped(*escape(s))`. -/
def quote (s : Str) : Str := quote_escaped (escape s).1 (escape s).2

/-- `quote_info(s)`: the quoted form together with whether quoting was
required. -/
def quote_info (s : Str) : Str × Bool := (quote s, (escape s).2)

/-- `join(args) = ' '.join(quote(i) for i in args)`. -/
def join : List Str → Str
  | [] => []
  | [a] => quote a
  | a :: rest => quote a ++ (' ' :: join rest)

end Posix

namespace Ninja

/-! ### bfg9000/backends/ninja/syntax.py -/

/-- The four escaping contexts of the ninja writer (`Syntax` in the source:
`output`, `input`, `shell`, `clean`). -/
inductive Syn where
  | output
  | input
  | shell
  | clean
deriving DecidableEq

/-- Word characters of the Python 2 regex classes `\w` and `\W` on ASCII
strings: alphanumerics and underscore. -/
def isWordChar (c : Char) : Bool := c.isAlphanum || c = '_'

/-- Every character in `special` is prefixed with the `$` sigil; this is the
regex substitution pattern used by `Writer.escape_str` (for the shell and
clean cases, prefixing `$` with `$` is exactly `replace('$', '$$')`). -/
def subEscape (special : List Char) (s : Str) : Str :=
  (s.map (fun c => if c ∈ special then ['$', c] else [c])).flatten

/-- Function `Writer.escape_str(string, syntax)`: a newline anywhere is an
error; the output position escapes colon, sigil and space, the input
position escapes sigil and space, and both the shell and the clean positions
double the sigil. -/
def escape_str (s : Str) (syn : Syn) : Option Str :=
  if '\n' ∈ s then none
  else some (match syn with
    | .output => subEscape [':', '$', ' '] s
    | .input => subEscape ['$', ' '] s
    | .shell => subEscape ['$'] s
    | .clean => subEscape ['$'] s)

/-- Atomic string-like values reaching `Writer.write`.  Modelled from the
spec: the `safe_str` module is not among the provided sources; its fragment
algebra has raw literals (`literal`), shell-escaped-only literals
(`shell_literal`) and plain text (ordinary Python strings). -/
inductive Atom where
  | str (s : Str)
  | literal (s : Str)
  | shellLit (s : Str)

/-- Values handled by the writer: an atom, a plain Python list of values, a
`shell.shell_list` (a list subclass marking an already-shell-shaped
command), or a concatenation (`safe_str.jbos`) of atoms.  Modelled from the
spec for the missing `safe_str` module: concatenations are flattened on
construction, so their parts are atomic; `path.Path` values (also an
external module) are outside the modelled domain, no claim exercises
them. -/
inductive Value where
  | atom (a : Atom)
  | args (l : List Value)
  | shellList (l : List Value)
  | jbos (bits : List Atom)

/-- Predicate `iterutils.isiterable`: Python lists (and the list subclass
`shell_list`) are iterable; strings are excluded explicitly, and the
`safe_str` fragment objects are not iterable. -/
def isIterableV : Value → Bool
  | .args _ => true
  | .shellList _ => true
  | _ => false

/-- Test for `isinstance(x, shell.shell_list)`. -/
def isShellListV : Value → Bool
  | .shellList _ => true
  | _ => false

/-- Class `Commands`: one or more command lines plus environment bindings.
The constructor rejects an empty command list; operations on an empty list
are modelled as `none`. -/
structure Commands where
  commands : List Value
  environ : List (Str × Str)

/-- Property `Commands.needs_shell`, in the source's operand order:
a non-empty environment, more than one command line, a `shell_list` first
line, or a non-iterable first line each force a shell wrapper. -/
def Commands.needs_shell : Commands → Option Bool
  | ⟨[], _⟩ => none
  | ⟨l0 :: rest, env⟩ =>
      some (decide (0 < env.length) || decide (0 < rest.length) ||
        isShellListV l0 || !(isIterableV l0))

/-- Method `Writer.write` on atomic values, returning the emitted text and
the `escaped` flag: raw literals are emitted verbatim, shell literals are
backend-escaped only, and plain strings are shell-quoted first when the
position is `shell` and a quoting function was supplied (`q`). -/
def writeAtom : Atom → Syn → Bool → Option (Str × Bool)
  | .literal s, _, _ => some (s, true)
  | .shellLit s, syn, _ => (escape_str s syn).map (fun t => (t, true))
  | .str s, syn, q =>
    if syn = .shell && q then
      let p := Posix.quote_info s
      (escape_str p.1 syn).map (fun t => (t, p.2))
    else (escape_str s syn).map (fun t => (t, false))

/-- Method `Writer.write` on the parts of a concatenation: each part is
written in sequence and the escaped flags are or-ed together. -/
def writeJbos : List Atom → Syn → Bool → Option (Str × Bool)
  | [], _, _ => some ([], false)
  | a :: rest, syn, q => do
      let p ← writeAtom a syn q
      let p2 ← writeJbos rest syn q
      pure (p.1 ++ p2.1, p.2 || p2.2)

/-- Method `Writer.write`: a raw list reaching `write` is a `TypeError` in
the source (`safe_str.safe_str` rejects lists); lists are only ever
iterated by `write_each` and `write_shell`. -/
def writeV : Value → Syn → Bool → Option (Str × Bool)
  | .atom a, syn, q => writeAtom a syn q
  | .jbos bits, syn, q => writeJbos bits syn q
  | .args _, _, _ => none
  | .shellList _, _, _ => none

/-- Elements after the first in `Writer.write_each`: each is preceded by the
delimiter `literal(' ')` and written with the default shell-quoting
function. -/
def writeEachGo (syn : Syn) : List Value → Option Str
  | [] => some []
  | x :: xs => do
      let p ← writeV x syn true
      let rest ← writeEachGo syn xs
      pure (S " " ++ p.1 ++ rest)

/-- Method `Writer.write_each(things, syntax, delim=literal(' '), prefix)`:
nothing is emitted for an empty sequence; otherwise the prefix text `pre`
is emitted once, then the elements separated by single spaces. -/
def write_each (l : List Value) (syn : Syn) (pre : Str) : Option Str :=
  match l with
  | [] => some []
  | x :: xs => do
      let p ← writeV x syn true
      let rest ← writeEachGo syn xs
      pure (pre ++ p.1 ++ rest)

/-- Method `Writer.write_shell`: iterable values are written element-wise
with shell quoting per element; anything else goes through `write` with
shell quoting disabled. -/
def write_shell (v : Value) (syn : Syn) : Option Str :=
  match v with
  | .args l => write_each l syn []
  | .shellList l => write_each l syn []
  | other => (writeV other syn false).map (fun p => p.1)

/-- One line of `shell.global_env`: `['export', jbos(name, shell_literal('='),
value)]`. -/
def global_env_line (n v : Str) : Value :=
  .args [.atom (.str (S "export")), .jbos [.str n, .shellLit (S "="), .str v]]

/-- Command lines after the first inside `Commands.use`: `shell.join_commands`
interleaves the separator `shell_literal(' && ')`, and each line is written
through `write_shell`. -/
def useGo : List Value → Option Str
  | [] => some []
  | x :: xs => do
      let sep ← write_shell (.atom (.shellLit (S " && "))) .shell
      let t ← write_shell x .shell
      let rest ← useGo xs
      pure (sep ++ t ++ rest)

/-- Method `Commands.use`: environment bindings are rendered as `export`
command lines ahead of the command lines, all joined by ` && `.  The
platform check is modelled from the spec for the missing `platforms`
module: the platform family is fixed to a non-Windows one, so no
`cmd /s /c "..."` envelope is added (no claim exercises Windows
behaviour). -/
def Commands.use (c : Commands) : Option Str :=
  match (c.environ.map (fun p => global_env_line p.1 p.2)) ++ c.commands with
  | [] => some []
  | x :: xs => do
      let t ← write_shell x .shell
      let rest ← useGo xs
      pure (t ++ rest)

end Ninja

namespace Ninja

/-- Backend versions.  Modelled from the spec: `versioning.Version` is not
among the provided sources; versions are dot-separated numeric components
compared lexicographically (a proper prefix is smaller, so `1.5 > 1.4.9`). -/
abbrev Version := List Nat

/-- Strict comparison `a < b` on versions. -/
def verLt : Version → Version → Bool
  | _, [] => false
  | [], _ :: _ => true
  | a :: as, b :: bs => decide (a < b) || (decide (a = b) && verLt as bs)

/-- The construction-time failures of the IR builder (all `ValueError` in
the source; the spec names them InvalidNameError, AlreadyExistsError,
DuplicateOutputError, UnknownRuleError, InvalidPoolError). -/
inductive NinjaError where
  | invalidName
  | alreadyExists
  | duplicateOutput (o : Str)
  | unknownRule (r : Str)
  | invalidPool
  | invalidCommands
deriving DecidableEq

/-- The command stored in a rule: the whole `Commands` object when it needs a
shell wrapper, otherwise its single command line (`command.commands[0]`). -/
inductive WValue where
  | cmds (c : Commands)
  | plain (v : Value)

/-- Named tuple `Rule` of the source. -/
structure Rule where
  command : WValue
  depfile : Option Str
  deps : Option Str
  generator : Bool
  pool : Option Str
  restat : Bool

/-- Named tuple `Build` of the source; `vars` is the per-edge variable
override mapping (`variables` in the source), with normalized names. -/
structure Build where
  outputs : List Str
  rule : Str
  inputs : List Str
  implicit : List Str
  order_only : List Str
  vars : List (Str × Value)

/-- Enum `Section`: emission order of the variable sections. -/
inductive Section where
  | path
  | command
  | flags
  | other

/-- State of a `NinjaFile`: the variable identity table (normalized names),
the per-section variable lists, the insertion-ordered rule table, the edge
list, the registered-output set and the default-target list. -/
structure NinjaFile where
  bfgfile : Str
  minVer : Option Version
  var_table : List Str
  pathVars : List (Str × Value)
  commandVars : List (Str × Value)
  flagsVars : List (Str × Value)
  otherVars : List (Str × Value)
  rules : List (Str × Rule)
  builds : List Build
  build_outputs : List Str
  defaults : List Value

/-- Constructor `NinjaFile(bfgfile)`: every table empty, no watermark. -/
def NinjaFile.init (bfgfile : Str) : NinjaFile :=
  ⟨bfgfile, none, [], [], [], [], [], [], [], [], []⟩

/-- Normalization performed by `Variable.__init__`:
`re.sub('\W', '_', name)` replaces each non-word character with an
underscore; two variables are the same identity iff their normalized names
are equal. -/
def normalizeVar (s : Str) : Str := s.map (fun c => if isWordChar c then c else '_')

/-- Method `NinjaFile.min_version(version)`: raise the watermark when unset
or when the new version is strictly greater; never lower it. -/
def NinjaFile.min_version (st : NinjaFile) (v : Version) : NinjaFile :=
  match st.minVer with
  | none => { st with minVer := some v }
  | some cur => if verLt cur v then { st with minVer := some v } else st

/-- Method `NinjaFile.has_variable(name)`: membership of the normalized name
in the variable identity table. -/
def NinjaFile.has_variable (st : NinjaFile) (name : Str) : Bool :=
  st.var_table.contains (normalizeVar name)

/-- Selects the section list the given `Section` stores into. -/
def NinjaFile.sectionVars (st : NinjaFile) : Section → List (Str × Value)
  | .path => st.pathVars
  | .command => st.commandVars
  | .flags => st.flagsVars
  | .other => st.otherVars

/-- Appends a variable entry to one section list. -/
def NinjaFile.addSectionVar (st : NinjaFile) (sec : Section) (nv : Str × Value) :
    NinjaFile :=
  match sec with
  | .path => { st with pathVars := st.pathVars ++ [nv] }
  | .command => { st with commandVars := st.commandVars ++ [nv] }
  | .flags => { st with flagsVars := st.flagsVars ++ [nv] }
  | .other => { st with otherVars := st.otherVars ++ [nv] }

/-- Method `NinjaFile.variable(name, value, section, exist_ok)` (the name
`variable` is a Lean keyword): the name is normalized; an existing identity
is returned unchanged when `exist_ok` and is an AlreadyExistsError
otherwise; a fresh identity is interned and appended to its section list.
The returned string is the normalized name (the `Variable` identity). -/
def NinjaFile.declareVariable (st : NinjaFile) (name : Str) (value : Value)
    (sec : Section) (exist_ok : Bool) : NinjaFile × Except NinjaError Str :=
  let n := normalizeVar name
  if st.has_variable name then
    if exist_ok then (st, .ok n) else (st, .error .alreadyExists)
  else
    ({ st.addSectionVar sec (n, value) with var_table := st.var_table ++ [n] }, .ok n)

/-- Method `NinjaFile.has_rule(name)`. -/
def NinjaFile.has_rule (st : NinjaFile) (name : Str) : Bool :=
  (st.rules.map Prod.fst).contains name

/-- Modelled from the spec: `tools.common.Command.convert_args` (module not
among the provided sources) rewrites embedded tool-invocation objects
through the converter and leaves scalar arguments untouched; the modelled
value domain contains no tool objects, so `convert_args(self.cmd_var)` is
the identity and the `cmd_var` variable interning it could trigger never
fires. -/
def Commands.convert_args (c : Commands) : Commands := c

/-- Tail of `NinjaFile.rule` after the pool handling: the name must contain
only word characters, must not already be declared, and the rule tuple is
appended. -/
def NinjaFile.ruleFinish (st : NinjaFile) (name : Str) (cmd : WValue)
    (depfile deps : Option Str) (generator : Bool) (pool : Option Str)
    (restat : Bool) : NinjaFile × Option NinjaError :=
  if name.any (fun c => !(isWordChar c)) then (st, some .invalidName)
  else if st.has_rule name then (st, some .alreadyExists)
  else ({ st with rules := st.rules ++ [(name, ⟨cmd, depfile, deps, generator, pool, restat⟩)] }, none)

/-- Method `NinjaFile.rule(name, command, depfile, deps, generator, pool,
restat)`: the command is objectified into a `Commands` and converted; when
it does not need a shell it collapses to its single line (the `ns`
expression is `Commands.needs_shell` unfolded on a non-empty command list);
a `console` pool raises the version watermark to 1.5 before the name checks
run, any other pool fails. -/
def NinjaFile.rule (st : NinjaFile) (name : Str) (command : Commands)
    (depfile deps : Option Str) (generator : Bool) (pool : Option Str)
    (restat : Bool) : NinjaFile × Option NinjaError :=
  let command := command.convert_args
  match command.commands with
  | [] => (st, some .invalidCommands)
  | l0 :: rest =>
    let ns := decide (0 < command.environ.length) || decide (0 < rest.length) ||
      isShellListV l0 || !(isIterableV l0)
    let cmd := if ns then WValue.cmds command else WValue.plain l0
    match pool with
    | some p =>
      if p = S "console" then
        (st.min_version [1, 5]).ruleFinish name cmd depfile deps generator pool restat
      else (st, some .invalidPool)
    | none => st.ruleFinish name cmd depfile deps generator pool restat

/-- Method `NinjaFile.has_build(name)`: membership in the registered-output
set. -/
def NinjaFile.has_build (st : NinjaFile) (name : Str) : Bool :=
  st.build_outputs.contains name

/-- The per-output loop of `NinjaFile.build`: each output is checked against
the registered set and then added; a duplicate raises at that point, with
the outputs already walked left registered (a Python `raise` does not roll
back earlier iterations). -/
def registerOutputs : NinjaFile → List Str → NinjaFile × Option NinjaError
  | st, [] => (st, none)
  | st, o :: os =>
    if st.has_build o then (st, some (.duplicateOutput o))
    else registerOutputs { st with build_outputs := st.build_outputs ++ [o] } os

/-- Method `NinjaFile.build(output, rule, inputs, implicit, order_only,
variables)`: the rule must exist unless it is `phony`; override names are
normalized; outputs are registered one by one and the edge is appended only
if none was a duplicate.  The scalar-to-list promotion of
`iterutils.listify` is the identity here because the arguments are already
lists. -/
def NinjaFile.build (st : NinjaFile) (output : List Str) (rule : Str)
    (inputs implicit order_only : List Str) (variableArgs : List (Str × Value)) :
    NinjaFile × Option NinjaError :=
  if !(decide (rule = S "phony")) && !(st.has_rule rule) then
    (st, some (.unknownRule rule))
  else
    let vars := variableArgs.map (fun p => (normalizeVar p.1, p.2))
    match registerOutputs st output with
    | (st2, some e) => (st2, some e)
    | (st2, none) =>
        ({ st2 with builds := st2.builds ++ [⟨output, rule, inputs, implicit, order_only, vars⟩] }, none)

/-- Method `NinjaFile.default(paths)`: append-only, no uniqueness check. -/
def NinjaFile.default (st : NinjaFile) (paths : List Value) : NinjaFile :=
  { st with defaults := st.defaults ++ paths }

end Ninja

namespace Ninja

/-- Indentation used by `_write_variable`: two spaces per level. -/
def indentOf (n : Nat) : Str := (List.replicate n (S "  ")).flatten

/-- Method `NinjaFile._write_variable(out, name, value, syntax, indent)`:
indentation, the variable name, ` = `, the value through
`Writer.write_shell`, and a newline.  A `Commands` value is not iterable, so
`write_shell` hands it to `write`, whose `safe_str` conversion produces the
raw literal `Commands.use` (independent of the position). -/
def writeVarLine (name : Str) (w : WValue) (syn : Syn) (indent : Nat) :
    Option Str := do
  let v ← (match w with
    | .plain value => write_shell value syn
    | .cmds c => c.use)
  pure (indentOf indent ++ name ++ S " = " ++ v ++ S "\n")

/-- Python truthiness of the optional string fields of a rule: `None` and
the empty string are falsy. -/
def optTruthy : Option Str → Bool
  | none => false
  | some s => !s.isEmpty

/-- Method `NinjaFile._write_rule(out, name, rule)`: the `rule` line, the
always-present `command` line, then `depfile`, `deps`, `generator`, `pool`
and `restat` lines when truthy, each indented once. -/
def writeRule (name : Str) (r : Rule) : Option Str := do
  let cmdLine ← writeVarLine (normalizeVar (S "command")) r.command .shell 1
  let depLine ← (match r.depfile with
    | some s =>
      if s.isEmpty then pure ([] : Str)
      else writeVarLine (normalizeVar (S "depfile")) (.plain (.atom (.str s))) .shell 1
    | none => pure ([] : Str))
  let depsLine ← (match r.deps with
    | some s =>
      if s.isEmpty then pure ([] : Str)
      else writeVarLine (normalizeVar (S "deps")) (.plain (.atom (.str s))) .shell 1
    | none => pure ([] : Str))
  let genLine ← (if r.generator then
      writeVarLine (normalizeVar (S "generator")) (.plain (.atom (.str (S "1")))) .shell 1
    else pure ([] : Str))
  let poolLine ← (match r.pool with
    | some s =>
      if s.isEmpty then pure ([] : Str)
      else writeVarLine (normalizeVar (S "pool")) (.plain (.atom (.str s))) .shell 1
    | none => pure ([] : Str))
  let restatLine ← (if r.restat then
      writeVarLine (normalizeVar (S "restat")) (.plain (.atom (.str (S "1")))) .shell 1
    else pure ([] : Str))
  pure (S "rule " ++ name ++ S "\n" ++ cmdLine ++ depLine ++ depsLine ++
    genLine ++ poolLine ++ restatLine)

/-- Method `NinjaFile._write_build(out, build)`: the `build` line with
outputs in output position, the rule name, then inputs, implicit inputs
(after ` | `) and order-only inputs (after ` || `) in input position,
followed by the per-edge variable overrides indented once. -/
def writeBuildLine (b : Build) : Option Str := do
  let outs ← write_each (b.outputs.map (fun s => Value.atom (.str s))) .output []
  let ins ← write_each (b.inputs.map (fun s => Value.atom (.str s))) .input (S " ")
  let imps ← write_each (b.implicit.map (fun s => Value.atom (.str s))) .input (S " | ")
  let oos ← write_each (b.order_only.map (fun s => Value.atom (.str s))) .input (S " || ")
  let varLines ← b.vars.mapM (fun p => writeVarLine p.1 (.plain p.2) .shell 1)
  pure (S "build " ++ outs ++ S ": " ++ b.rule ++ ins ++ imps ++ oos ++
    S "\n" ++ varLines.flatten)

/-- Rendering `str(Version)`: dot-separated components. -/
def versionToStr : Version → Str
  | [] => []
  | [n] => (Nat.repr n).data
  | n :: rest => (Nat.repr n).data ++ '.' :: versionToStr rest

/-- Emission position per section: path variables render in the clean
position because they are pre-escaped, everything else in the shell
position. -/
def sectionSyn : Section → Syn
  | .path => .clean
  | _ => .shell

/-- One variable section of `NinjaFile.write`: its `name = value` lines, and
a blank separator line when the section is non-empty. -/
def writeSection (l : List (Str × Value)) (syn : Syn) : Option Str := do
  let lines ← l.mapM (fun p => writeVarLine p.1 (.plain p.2) syn 0)
  pure (lines.flatten ++ (if l.isEmpty then [] else S "\n"))

/-- The header comment `_comment_tmpl.format(self._bfgfile)`. -/
def commentHeader (f : Str) : Str :=
  S "# Do not edit this file! It was automatically generated by bfg9000.\n# Instead, you should edit the source file that created this:\n# " ++ f

/-- Method `NinjaFile.write(out)`: header comment and blank line; the
`ninja_required_version` variable and a blank line when the watermark is
set; the variable sections in fixed order; the rules in insertion order,
each followed by a blank line; the build edges in insertion order, each
followed by a blank line; and the `default` line when any default targets
were declared. -/
def NinjaFile.write (st : NinjaFile) : Option Str := do
  let verPart ← (match st.minVer with
    | none => pure ([] : Str)
    | some v => do
        let l ← writeVarLine (normalizeVar (S "ninja_required_version"))
          (.plain (.atom (.str (versionToStr v)))) .shell 0
        pure (l ++ S "\n"))
  let secParts ← ([Section.path, Section.command, Section.flags, Section.other]).mapM
      (fun sec => writeSection (st.sectionVars sec) (sectionSyn sec))
  let ruleParts ← st.rules.mapM (fun p => do
      let r ← writeRule p.1 p.2
      pure (r ++ S "\n"))
  let buildParts ← st.builds.mapM (fun b => do
      let l ← writeBuildLine b
      pure (l ++ S "\n"))
  let defPart ← (match st.defaults with
    | [] => pure ([] : Str)
    | _ => do
        let d ← write_each st.defaults .input []
        pure (S "default " ++ d ++ S "\n"))
  pure (commentHeader st.bfgfile ++ S "\n\n" ++ verPart ++ secParts.flatten ++
    ruleParts.flatten ++ buildParts.flatten ++ defPart)

end Ninja

open Ninja Posix

/-- C3: for every Command object with at least one command line,
`needs_shell` is true iff the command has more than one line, or the
environment is non-empty, or the single (first) line is a `shell_list`, or
the single (first) line is not an iterable argument list. -/
theorem needs_shell_characterization (c : Commands) (l0 : Value)
    (rest : List Value) (h : c.commands = l0 :: rest) :
    c.needs_shell = some true ↔
      (rest ≠ [] ∨ c.environ ≠ [] ∨ isShellListV l0 = true ∨
        isIterableV l0 = false) := by
  obtain ⟨cs, env⟩ := c
  simp only at h
  subst h
  simp [Commands.needs_shell, List.length_pos, Bool.or_eq_true,
    decide_eq_true_eq, Bool.not_eq_true']
  tauto

/-- C3 witness: a two-line command needs a shell wrapper. -/
theorem needs_shell_characterization_w :
    (Commands.mk [Value.atom (.str (S "ls")), Value.atom (.str (S "pwd"))]
      []).needs_shell = some true :=
  (needs_shell_characterization _ _ _ rfl).mpr
    (Or.inl (List.cons_ne_nil _ _))

/-- C4 counterexample: in the clean (literal) position the writer does not
return the string unchanged; it doubles the `$` sigil exactly as the shell
position does. -/
theorem escape_str_clean_counterexample :
    escape_str (S "$") Syn.clean = some (S "$$") ∧
      escape_str (S "$") Syn.clean ≠ some (S "$") := by decide

/-- C4 (amended): for every newline-free string, the output position
prefixes each of `:`, `$` and space with `$`, the input position prefixes
each of `$` and space with `$` but leaves `:` alone, the shell position
doubles `$` only — and the clean (fourth) position behaves exactly like the
shell position, doubling `$`, rather than returning the string unchanged. -/
theorem escape_str_modes (s : Str) (h : '\n' ∉ s) :
    escape_str s .output =
      some ((s.map (fun c => if c = ':' ∨ c = '$' ∨ c = ' ' then ['$', c] else [c])).flatten) ∧
    escape_str s .input =
      some ((s.map (fun c => if c = '$' ∨ c = ' ' then ['$', c] else [c])).flatten) ∧
    escape_str s .shell =
      some ((s.map (fun c => if c = '$' then ['$', c] else [c])).flatten) ∧
    escape_str s .clean = escape_str s .shell := by
  refine ⟨?_, ?_, ?_, ?_⟩ <;>
    simp [escape_str, h, subEscape, List.mem_cons, List.not_mem_nil]

/-- C4 witness: the escaping of `a:b $c` in all four positions. -/
theorem escape_str_modes_w :
    escape_str (S "a:b $c") .output = some (S "a$:b$ $$c") ∧
    escape_str (S "a:b $c") .input = some (S "a:b$ $$c") ∧
    escape_str (S "a:b $c") .shell = some (S "a:b $$c") ∧
    escape_str (S "a:b $c") .clean = escape_str (S "a:b $c") .shell := by
  have h := escape_str_modes (S "a:b $c") (by decide)
  exact ⟨h.1.trans (by decide), h.2.1.trans (by decide),
    h.2.2.1.trans (by decide), h.2.2.2⟩

/-- C5: quoting is required iff the string is non-empty and has a character
outside the safe set; when required, the result is the single-quote-wrapped
rewrite of the string; a string of safe characters only (in particular the
empty string) is returned unchanged and unquoted. -/
theorem quote_info_spec (s : Str) :
    ((quote_info s).2 = true ↔ s ≠ [] ∧ ∃ c ∈ s, isSafeChar c = false) ∧
    ((quote_info s).2 = true →
      (quote_info s).1 = '\'' :: (replaceQuote s ++ ['\''])) ∧
    ((∀ c ∈ s, isSafeChar c = true) → quote_info s = (s, false)) := by
  unfold quote_info quote quote_escaped escape
  by_cases he : s.isEmpty
  · have : s = [] := by simpa [List.isEmpty_iff] using he
    subst this
    simp
  · have hne : s ≠ [] := by simpa [List.isEmpty_iff] using he
    by_cases hb : hasBadChar s
    · simp only [he, hb, Bool.not_true, if_neg, Bool.false_eq_true, if_false, if_true]
      refine ⟨?_, ?_, ?_⟩
      · simp only [hasBadChar, List.any_eq_true, Bool.not_eq_true'] at hb
        simp [hne, hb]
      · intro h2
        trivial
      · intro hall
        simp only [hasBadChar, List.any_eq_true, Bool.not_eq_true'] at hb
        obtain ⟨c, hc, hcs⟩ := hb
        exact absurd (hall c hc) (by simp [hcs])
    · simp only [he, hb, Bool.not_false, if_true, Bool.false_eq_true, if_false]
      simp only [hasBadChar, List.any_eq_true, Bool.not_eq_true'] at hb
      push_neg at hb
      constructor
      · simp only [Bool.false_eq_true, false_iff]
        rintro ⟨-, c, hc, hcs⟩
        exact absurd hcs (by simp [hb c hc])
      · exact ⟨by simp, fun _ => by simp⟩

/-- C5 witness: a string with a space requires quoting and is wrapped; a
safe-only string is unchanged. -/
theorem quote_info_spec_w :
    (quote_info (S "a b")).2 = true ∧
    (quote_info (S "a b")).1 = '\'' :: (replaceQuote (S "a b") ++ ['\'']) ∧
    quote_info (S "a_b") = (S "a_b", false) := by
  have h1 := (quote_info_spec (S "a b")).1.mpr
    (by exact ⟨by decide, ' ', by decide, by decide⟩)
  exact ⟨h1, (quote_info_spec (S "a b")).2.1 h1,
    (quote_info_spec (S "a_b")).2.2 (by decide)⟩

/-- C8: when a variable with the same normalized name is already declared,
redeclaring with `exist_ok = false` fails with AlreadyExistsError and
changes nothing, while redeclaring with `exist_ok = true` succeeds,
returning the existing normalized identity (which is interned in the
variable table) without touching the state. -/
theorem declareVariable_redeclare (st : NinjaFile) (n : Str) (v v2 : Value)
    (sec sec2 : Section) (h : st.has_variable n = true) :
    (st.declareVariable n v sec false).1 = st ∧
    (st.declareVariable n v sec false).2 = .error .alreadyExists ∧
    (st.declareVariable n v2 sec2 true).1 = st ∧
    (st.declareVariable n v2 sec2 true).2 = .ok (normalizeVar n) ∧
    normalizeVar n ∈ st.var_table := by
  have hm : normalizeVar n ∈ st.var_table := by
    simpa [NinjaFile.has_variable, List.contains, List.elem_eq_mem,
      decide_eq_true_eq] using h
  refine ⟨?_, ?_, ?_, ?_, hm⟩ <;> simp [NinjaFile.declareVariable, h]

def c8State : NinjaFile :=
  ((NinjaFile.init (S "f")).declareVariable (S "foo")
    (.atom (.str (S "1"))) .other true).1

/-- C8 witness: redeclaring `foo` on a file that has it. -/
theorem declareVariable_redeclare_w :
    (c8State.declareVariable (S "foo") (Value.atom (.str (S "2"))) .other
      false).2 = .error .alreadyExists :=
  (declareVariable_redeclare c8State (S "foo") (Value.atom (.str (S "2")))
    (Value.atom (.str (S "3"))) .other .other (by decide)).2.1

/-- C9: redeclaring an existing variable with `exist_ok = true` silently
discards the new value and leaves the entire state (hence the stored value,
all section lists, rules, edges, defaults and the watermark) unchanged,
returning the normalized identity. -/
theorem declareVariable_exist_ok_frame (st : NinjaFile) (n : Str)
    (v1 v2 : Value) (sec0 sec : Section) (h : st.has_variable n = true) :
    (st.declareVariable n v2 sec true).1 = st ∧
    (st.declareVariable n v2 sec true).2 = .ok (normalizeVar n) ∧
    ((normalizeVar n, v1) ∈ st.sectionVars sec0 →
      (normalizeVar n, v1) ∈ ((st.declareVariable n v2 sec true).1).sectionVars sec0) := by
  refine ⟨?_, ?_, ?_⟩ <;> simp [NinjaFile.declareVariable, h]

def c9State : NinjaFile :=
  ((NinjaFile.init (S "g")).declareVariable (S "bar")
    (.atom (.str (S "old"))) .flags true).1

/-- C9 witness: redeclaring `bar` with a new value leaves the state intact
and keeps the old entry in its section list. -/
theorem declareVariable_exist_ok_frame_w :
    (c9State.declareVariable (S "bar") (Value.atom (.str (S "new"))) .other
      true).1 = c9State ∧
    (normalizeVar (S "bar"), Value.atom (.str (S "old"))) ∈
      ((c9State.declareVariable (S "bar") (Value.atom (.str (S "new"))) .other
        true).1).sectionVars .flags := by
  have h := declareVariable_exist_ok_frame c9State (S "bar")
    (Value.atom (.str (S "old"))) (Value.atom (.str (S "new"))) .flags .other
    (by decide)
  have hmem : (normalizeVar (S "bar"), Value.atom (Atom.str (S "old"))) ∈
      c9State.sectionVars .flags := List.mem_singleton.mpr rfl
  exact ⟨h.1, h.2.2 hmem⟩

def c1State : NinjaFile :=
  ((NinjaFile.init (S "f")).build [S "b"] (S "phony") [] [] [] []).1

def c1Fail : NinjaFile × Option NinjaError :=
  c1State.build [S "a", S "b"] (S "phony") [] [] [] []

/-- C1 counterexample: after a first edge registering output `b`, the call
`build(["a", "b"], "phony")` fails with the duplicate-output error on `b`,
yet it is not state-preserving: the output `a`, listed before the
duplicate, has become registered (queryable via `has_build`) even though the
call failed and appended no edge. -/
theorem build_duplicate_counterexample :
    ((NinjaFile.init (S "f")).build [S "b"] (S "phony") [] [] [] []).2 = none ∧
    c1State.has_build (S "a") = false ∧
    c1Fail.2 = some (NinjaError.duplicateOutput (S "b")) ∧
    c1Fail.1.has_build (S "a") = true := by decide

theorem registerOutputs_builds_eq (out : List Str) :
    ∀ st : NinjaFile, (registerOutputs st out).1.builds = st.builds := by
  induction out with
  | nil => intro st; rfl
  | cons o os ih =>
    intro st
    by_cases h : st.has_build o = true
    · simp [registerOutputs, h]
    · simp only [registerOutputs, h, Bool.false_eq_true, if_false, if_neg]
      exact ih _

theorem has_build_mono (st : NinjaFile) (o x : Str)
    (h : st.has_build x = true) :
    ({ st with build_outputs := st.build_outputs ++ [o] } : NinjaFile).has_build x = true := by
  simp only [NinjaFile.has_build, List.contains, List.elem_eq_mem,
    decide_eq_true_eq] at h ⊢
  exact List.mem_append_left _ h

theorem registerOutputs_mono (out : List Str) :
    ∀ (st : NinjaFile) (x : Str), st.has_build x = true →
      (registerOutputs st out).1.has_build x = true := by
  induction out with
  | nil => intro st x h; exact h
  | cons o os ih =>
    intro st x h
    by_cases ho : st.has_build o = true
    · simpa [registerOutputs, ho] using h
    · rw [registerOutputs, if_neg (by simp [ho])]
      exact ih _ _ (has_build_mono st o x h)

theorem registerOutputs_dup (out : List Str) :
    ∀ st : NinjaFile, (∃ o ∈ out, st.has_build o = true) →
      ∃ d pre rest, out = pre ++ d :: rest ∧
        (registerOutputs st out).2 = some (.duplicateOutput d) ∧
        ∀ x ∈ pre, (registerOutputs st out).1.has_build x = true := by
  induction out with
  | nil => rintro st ⟨o, ho, -⟩; exact absurd ho (List.not_mem_nil o)
  | cons o os ih =>
    rintro st ⟨d0, hd0, hdup⟩
    by_cases ho : st.has_build o = true
    · refine ⟨o, [], os, rfl, ?_, ?_⟩
      · simp [registerOutputs, ho]
      · intro x hx; exact absurd hx (List.not_mem_nil x)
    · have hd0os : d0 ∈ os := by
        rcases List.mem_cons.mp hd0 with h1 | h1
        · exact absurd hdup (by simp [h1, ho])
        · exact h1
      set st2 : NinjaFile := { st with build_outputs := st.build_outputs ++ [o] } with hst2
      obtain ⟨d, pre, rest, hsplit, herr, hpre⟩ :=
        ih st2 ⟨d0, hd0os, has_build_mono st o d0 hdup⟩
      have hro : registerOutputs st (o :: os) = registerOutputs st2 os := by
        rw [registerOutputs, if_neg (by simp [ho])]
      refine ⟨d, o :: pre, rest, by simp [hsplit], by rw [hro]; exact herr, ?_⟩
      intro x hx
      rcases List.mem_cons.mp hx with h1 | h1
      · subst h1
        rw [hro]
        exact registerOutputs_mono os st2 x
          (by simp [hst2, NinjaFile.has_build, List.contains, List.elem_eq_mem])
      · rw [hro]; exact hpre x h1

/-- C1 (amended): when some output of a `build` call is already registered
(and the rule check passes), the call fails with the duplicate-output error
for the first such output `d`, no edge is appended, and every previously
registered output stays queryable via `has_build` — but the call is not
atomic: the outputs listed before `d` have become registered by the failing
call. -/
theorem build_duplicate_behaviour (st : NinjaFile) (out : List Str)
    (rule : Str) (inputs implicit order_only : List Str)
    (vs : List (Str × Value))
    (hrule : rule = S "phony" ∨ st.has_rule rule = true)
    (hdup : ∃ o ∈ out, st.has_build o = true) :
    ∃ d pre rest,
      out = pre ++ d :: rest ∧
      (st.build out rule inputs implicit order_only vs).2 =
        some (.duplicateOutput d) ∧
      (st.build out rule inputs implicit order_only vs).1.builds = st.builds ∧
      (∀ x, st.has_build x = true →
        (st.build out rule inputs implicit order_only vs).1.has_build x = true) ∧
      (∀ x ∈ pre,
        (st.build out rule inputs implicit order_only vs).1.has_build x = true) := by
  have hcond : (!decide (rule = S "phony") && !st.has_rule rule) = false := by
    rcases hrule with h | h <;> simp [h]
  obtain ⟨d, pre, rest, hsplit, herr, hpre⟩ := registerOutputs_dup out st hdup
  rcases hreg : registerOutputs st out with ⟨st2, e2⟩
  rw [hreg] at herr
  have he2 : e2 = some (.duplicateOutput d) := herr
  have hbuild : st.build out rule inputs implicit order_only vs =
      (st2, some (.duplicateOutput d)) := by
    unfold NinjaFile.build
    rw [hcond, hreg, he2]
    rfl
  have hbuilds := registerOutputs_builds_eq out st
  rw [hreg] at hbuilds
  have hmono := fun x hx => registerOutputs_mono out st x hx
  refine ⟨d, pre, rest, hsplit, ?_, ?_, ?_, ?_⟩
  · rw [hbuild]
  · rw [hbuild]; exact hbuilds
  · intro x hx
    rw [hbuild]
    have := hmono x hx
    rw [hreg] at this
    exact this
  · intro x hx
    rw [hbuild]
    have := hpre x hx
    rw [hreg] at this
    exact this

def c1wState : NinjaFile :=
  ((NinjaFile.init (S "g")).build [S "y"] (S "phony") [] [] [] []).1

/-- C1 witness: the amended behaviour at a concrete failing call. -/
theorem build_duplicate_behaviour_w :
    ∃ d pre rest,
      ([S "x", S "y"] : List Str) = pre ++ d :: rest ∧
      (c1wState.build [S "x", S "y"] (S "phony") [] [] [] []).2 =
        some (.duplicateOutput d) ∧
      (c1wState.build [S "x", S "y"] (S "phony") [] [] [] []).1.builds =
        c1wState.builds ∧
      (∀ x, c1wState.has_build x = true →
        (c1wState.build [S "x", S "y"] (S "phony") [] [] [] []).1.has_build x = true) ∧
      (∀ x ∈ pre,
        (c1wState.build [S "x", S "y"] (S "phony") [] [] [] []).1.has_build x = true) :=
  build_duplicate_behaviour c1wState [S "x", S "y"] (S "phony") [] [] [] []
    (Or.inl rfl) ⟨S "y", by decide, by decide⟩

theorem verLt_irrefl (a : Version) : verLt a a = false := by
  induction a with
  | nil => rfl
  | cons x xs ih => simp [verLt, ih]

theorem verLt_trans (a : Version) : ∀ b c : Version,
    verLt a b = true → verLt b c = true → verLt a c = true := by
  induction a with
  | nil =>
    intro b c hab hbc
    cases b with
    | nil => exact absurd hab (by simp [verLt])
    | cons y ys =>
      cases c with
      | nil => exact absurd hbc (by simp [verLt])
      | cons z zs => simp [verLt]
  | cons x xs ih =>
    intro b c hab hbc
    cases b with
    | nil => exact absurd hab (by simp [verLt])
    | cons y ys =>
      cases c with
      | nil => exact absurd hbc (by simp [verLt])
      | cons z zs =>
        simp only [verLt, Bool.or_eq_true, Bool.and_eq_true,
          decide_eq_true_eq] at hab hbc ⊢
        rcases hab with h1 | ⟨h1, h1r⟩
        · rcases hbc with h2 | ⟨h2, h2r⟩
          · exact Or.inl (Nat.lt_trans h1 h2)
          · exact Or.inl (h2 ▸ h1)
        · rcases hbc with h2 | ⟨h2, h2r⟩
          · exact Or.inl (h1 ▸ h2)
          · exact Or.inr ⟨h1.trans h2, ih ys zs h1r h2r⟩

theorem verLt_connex (a : Version) : ∀ b : Version,
    verLt a b = false → a = b ∨ verLt b a = true := by
  induction a with
  | nil =>
    intro b h
    cases b with
    | nil => exact Or.inl rfl
    | cons y ys => exact absurd h (by simp [verLt])
  | cons x xs ih =>
    intro b h
    cases b with
    | nil => exact Or.inr (by simp [verLt])
    | cons y ys =>
      simp only [verLt, Bool.or_eq_false_iff, Bool.and_eq_false_iff,
        decide_eq_false_iff_not] at h
      obtain ⟨hxy, h2⟩ := h
      by_cases heq : x = y
      · subst heq
        rcases h2 with h2 | h2
        · exact absurd rfl h2
        · rcases ih ys (by simpa using h2) with h3 | h3
          · exact Or.inl (by rw [h3])
          · exact Or.inr (by simp [verLt, h3])
      · have : y < x := by omega
        exact Or.inr (by simp [verLt, this])

/-- Folding a sequence of `min_version` calls over a state. -/
def applyMin (st : NinjaFile) (vs : List Version) : NinjaFile :=
  vs.foldl NinjaFile.min_version st

/-- Comparison of watermark states: an unset watermark is below everything,
and a set watermark may only move up. -/
def optVerLe : Option Version → Option Version → Bool
  | none, _ => true
  | some _, none => false
  | some a, some b => !(verLt b a)

theorem min_version_some (st : NinjaFile) (m v : Version)
    (h : st.minVer = some m) :
    (st.min_version v).minVer = some (if verLt m v then v else m) := by
  unfold NinjaFile.min_version
  rw [h]
  by_cases hv : verLt m v = true
  · simp [hv]
  · have hvf : verLt m v = false := by simpa using hv
    simp [hvf, h]

theorem applyMin_minVer (vs : List Version) :
    ∀ (st : NinjaFile) (m : Version), st.minVer = some m →
      ∃ mx, (applyMin st vs).minVer = some mx ∧ (mx = m ∨ mx ∈ vs) ∧
        verLt mx m = false ∧ ∀ v ∈ vs, verLt mx v = false := by
  induction vs with
  | nil =>
    intro st m h
    exact ⟨m, h, Or.inl rfl, verLt_irrefl m, by intro v hv; exact absurd hv (List.not_mem_nil v)⟩
  | cons v vs ih =>
    intro st m h
    have happ : applyMin st (v :: vs) = applyMin (st.min_version v) vs := rfl
    by_cases hv : verLt m v = true
    · have h1 : (st.min_version v).minVer = some v := by
        rw [min_version_some st m v h, if_pos hv]
      obtain ⟨mx, hmx, hor, hxm, hall⟩ := ih (st.min_version v) v h1
      refine ⟨mx, by rw [happ]; exact hmx, ?_, ?_, ?_⟩
      · rcases hor with h2 | h2
        · exact Or.inr (h2 ▸ List.mem_cons_self v vs)
        · exact Or.inr (List.mem_cons_of_mem v h2)
      · by_contra hc
        simp only [Bool.not_eq_false] at hc
        have := verLt_trans mx m v hc hv
        simp [this] at hxm
      · intro w hw
        rcases List.mem_cons.mp hw with h2 | h2
        · exact h2 ▸ hxm
        · exact hall w h2
    · have hvf : verLt m v = false := by simpa using hv
      have h1 : (st.min_version v).minVer = some m := by
        rw [min_version_some st m v h, if_neg (by simp [hvf])]
      obtain ⟨mx, hmx, hor, hxm, hall⟩ := ih (st.min_version v) m h1
      have hxv : verLt mx v = false := by
        by_contra hc
        simp only [Bool.not_eq_false] at hc
        rcases verLt_connex mx m hxm with h3 | h3
        · rw [h3] at hc; simp [hc] at hvf
        · have := verLt_trans m mx v h3 hc
          simp [this] at hvf
      refine ⟨mx, by rw [happ]; exact hmx, ?_, hxm, ?_⟩
      · rcases hor with h2 | h2
        · exact Or.inl h2
        · exact Or.inr (List.mem_cons_of_mem v h2)
      · intro w hw
        rcases List.mem_cons.mp hw with h2 | h2
        · exact h2 ▸ hxv
        · exact hall w h2

/-- C7: starting from a file with no watermark, a non-empty sequence of
`min_version` calls leaves the watermark equal to a maximum of the supplied
versions (an element no supplied version exceeds); and no single call ever
lowers the watermark, so it is monotonically non-decreasing over the
lifetime of the file. -/
theorem min_version_watermark :
    (∀ (st : NinjaFile) (v : Version) (vs : List Version),
      st.minVer = none →
      ∃ mx, (applyMin st (v :: vs)).minVer = some mx ∧ mx ∈ v :: vs ∧
        ∀ w ∈ v :: vs, verLt mx w = false) ∧
    (∀ (st : NinjaFile) (v : Version),
      optVerLe st.minVer (st.min_version v).minVer = true) := by
  constructor
  · intro st v vs h0
    have h1 : (st.min_version v).minVer = some v := by
      rw [NinjaFile.min_version, h0]
    obtain ⟨mx, hmx, hor, hxm, hall⟩ := applyMin_minVer vs (st.min_version v) v h1
    refine ⟨mx, hmx, ?_, ?_⟩
    · rcases hor with h2 | h2
      · exact h2 ▸ List.mem_cons_self v vs
      · exact List.mem_cons_of_mem v h2
    · intro w hw
      rcases List.mem_cons.mp hw with h2 | h2
      · exact h2 ▸ hxm
      · exact hall w h2
  · intro st v
    match h : st.minVer with
    | none => simp [optVerLe]
    | some cur =>
      rw [min_version_some st cur v h]
      by_cases hv : verLt cur v = true
      · rw [if_pos hv]
        simp only [optVerLe, Bool.not_eq_true']
        by_contra hc
        simp only [Bool.not_eq_false] at hc
        have := verLt_trans cur v cur hv hc
        simp [verLt_irrefl] at this
      · rw [if_neg (by simp [Bool.not_eq_true] at hv; simp [hv])]
        simp [optVerLe, verLt_irrefl]

/-- C7 witness: two calls starting from a fresh file reach the larger
version. -/
theorem min_version_watermark_w :
    ∃ mx, (applyMin (NinjaFile.init (S "f")) ([1, 4] :: [[1, 5]])).minVer = some mx ∧
      mx ∈ [1, 4] :: [[1, 5]] ∧
      ∀ w ∈ ([1, 4] :: [[1, 5]] : List Version), verLt mx w = false :=
  min_version_watermark.1 (NinjaFile.init (S "f")) [1, 4] [[1, 5]] rfl

theorem safe_not_white (c : Char) (h : isSafeChar c = true) :
    isShWhite c = false := by
  by_contra hc
  simp only [Bool.not_eq_false] at hc
  simp only [isShWhite, Bool.or_eq_true, decide_eq_true_eq] at hc
  rcases hc with ((h1 | h1) | h1) | h1 <;> subst h1 <;>
    exact absurd h (by decide)

theorem safe_not_quote (c : Char) (h : isSafeChar c = true) :
    isShQuote c = false := by
  by_contra hc
  simp only [Bool.not_eq_false] at hc
  simp only [isShQuote, Bool.or_eq_true, decide_eq_true_eq] at hc
  rcases hc with h1 | h1 <;> subst h1 <;> exact absurd h (by decide)

theorem splitAux_replaceQuote (s : Str) :
    ∀ (t : Str) (rest : List Char),
      splitAux (replaceQuote s ++ '\'' :: rest) (some '\'') t true =
        splitAux rest none (t ++ s) true := by
  induction s with
  | nil => intro t rest; simp [replaceQuote, splitAux]
  | cons c cs ih =>
    intro t rest
    by_cases hc : c = '\''
    · subst hc
      have hrq : replaceQuote ('\'' :: cs) =
          '\'' :: '"' :: '\'' :: '"' :: '\'' :: replaceQuote cs := by
        simp [replaceQuote]
      rw [hrq]
      show splitAux ('\'' :: '"' :: '\'' :: '"' :: '\'' ::
        (replaceQuote cs ++ '\'' :: rest)) (some '\'') t true = _
      rw [show splitAux ('\'' :: '"' :: '\'' :: '"' :: '\'' ::
          (replaceQuote cs ++ '\'' :: rest)) (some '\'') t true =
          splitAux (replaceQuote cs ++ '\'' :: rest) (some '\'')
            (t ++ ['\'']) true from rfl]
      rw [ih (t ++ ['\'']) rest]
      simp
    · have hrq : replaceQuote (c :: cs) = c :: replaceQuote cs := by
        simp [replaceQuote, hc]
      rw [hrq]
      show splitAux (c :: (replaceQuote cs ++ '\'' :: rest)) (some '\'') t true = _
      rw [splitAux, if_neg hc, ih (t ++ [c]) rest]
      simp

theorem splitAux_safe_run (a : Str) :
    ∀ (t : Str) (rest : List Char) (b : Bool), a ≠ [] →
      (∀ c ∈ a, isSafeChar c = true) →
      splitAux (a ++ rest) none t b = splitAux rest none (t ++ a) true := by
  induction a with
  | nil => intro t rest b h; exact absurd rfl h
  | cons c as ih =>
    intro t rest b hne hsafe
    have hc : isSafeChar c = true := hsafe c (List.mem_cons_self c as)
    have hw : isShWhite c = false := safe_not_white c hc
    have hq : isShQuote c = false := safe_not_quote c hc
    have hstep : splitAux (c :: (as ++ rest)) none t b =
        splitAux (as ++ rest) none (t ++ [c]) true := by
      rw [splitAux, if_neg (by simp [hw]), if_neg (by simp [hq])]
    cases as with
    | nil =>
      show splitAux (c :: ([] ++ rest)) none t b = _
      rw [hstep]
      simp
    | cons c2 as2 =>
      show splitAux (c :: ((c2 :: as2) ++ rest)) none t b = _
      rw [hstep, ih (t ++ [c]) rest true (List.cons_ne_nil c2 as2)
        (fun x hx => hsafe x (List.mem_cons_of_mem c hx))]
      simp

theorem splitAux_quote_step (a : Str) (t : Str) (rest : List Char) (b : Bool)
    (hne : a ≠ []) :
    splitAux (quote a ++ rest) none t b = splitAux rest none (t ++ a) true := by
  by_cases hbad : hasBadChar a = true
  · have hq : quote a = '\'' :: (replaceQuote a ++ ['\'']) := by
      simp [quote, escape, quote_escaped, hbad, List.isEmpty_iff, hne]
    rw [hq]
    have : ('\'' :: (replaceQuote a ++ ['\''])) ++ rest =
        '\'' :: (replaceQuote a ++ '\'' :: rest) := by simp
    rw [this]
    rw [show splitAux ('\'' :: (replaceQuote a ++ '\'' :: rest)) none t b =
        splitAux (replaceQuote a ++ '\'' :: rest) (some '\'') t true from rfl]
    exact splitAux_replaceQuote a t rest
  · have hsafe : ∀ c ∈ a, isSafeChar c = true := by
      simp only [hasBadChar, List.any_eq_true, Bool.not_eq_true',
        Bool.not_eq_true] at hbad
      push_neg at hbad
      intro c hc
      have := hbad c hc
      simpa using this
    have hq : quote a = a := by
      simp [quote, escape, quote_escaped, hbad, List.isEmpty_iff, hne]
    rw [hq]
    exact splitAux_safe_run a t rest b hne hsafe

/-- C6: for every string containing a single quote or a space, splitting the
shell-quoted form with the POSIX tokenizer yields exactly that string as the
single token. -/
theorem split_quote_roundtrip (s : Str) (h : '\'' ∈ s ∨ ' ' ∈ s) :
    split (quote s) = some [s] := by
  have hne : s ≠ [] := by
    rcases h with h | h <;> exact List.ne_nil_of_mem h
  rw [split, show quote s = quote s ++ [] from (List.append_nil _).symm,
    splitAux_quote_step s [] [] false hne]
  simp [splitAux]

/-- C6 witness: quoting and re-splitting a string with spaces and a quote. -/
theorem split_quote_roundtrip_w :
    split (quote (S "it's a test")) = some [S "it's a test"] :=
  split_quote_roundtrip (S "it's a test") (Or.inr (by decide))

/-- C10: re-splitting the quoted join of any list of non-empty strings
reconstructs the list exactly; the non-emptiness is needed because the empty
string quotes to an empty token which vanishes on splitting, as the second
conjunct shows. -/
theorem split_join_roundtrip :
    (∀ args : List Str, (∀ a ∈ args, a ≠ []) →
      split (join args) = some args) ∧
    split (join [([] : Str)]) = some [] := by
  constructor
  · intro args
    induction args with
    | nil => intro; rfl
    | cons a rest ih =>
      intro h
      have ha : a ≠ [] := h a (List.mem_cons_self a rest)
      cases rest with
      | nil =>
        rw [split, show join [a] = quote a ++ [] from (List.append_nil _).symm.trans rfl,
          splitAux_quote_step a [] [] false ha]
        simp [splitAux]
      | cons b rest2 =>
        rw [split, show join (a :: b :: rest2) =
            quote a ++ (' ' :: join (b :: rest2)) from rfl,
          splitAux_quote_step a [] (' ' :: join (b :: rest2)) false ha]
        rw [show splitAux (' ' :: join (b :: rest2)) none ([] ++ a) true =
            (splitAux (join (b :: rest2)) none [] false).map
              (fun r => ([] ++ a) :: r) from rfl]
        have hrest := ih (fun x hx => h x (List.mem_cons_of_mem a hx))
        rw [split] at hrest
        rw [hrest]
        simp
  · rfl

/-- C10 witness: a concrete join of non-empty arguments splits back. -/
theorem split_join_roundtrip_w :
    split (join [S "a", S "b c", S "it's"]) = some [S "a", S "b c", S "it's"] :=
  split_join_roundtrip.1 [S "a", S "b c", S "it's"] (by decide)

/-- Objectification of the scenario's rule command.  Modelled from the spec:
`objutils.objectify` (module not among the provided sources) passes a
`Commands` instance through unchanged and wraps any other value in
`Commands(value)`; `Commands.__init__` applies `listify(..., scalar_ok =
False)`, so a Python list of argument strings becomes one command line per
element, with an empty environment. -/
def objectifyStrList (lines : List Str) : Commands :=
  ⟨lines.map (fun s => .atom (.str s)), []⟩

def c2Rule : NinjaFile × Option NinjaError :=
  (NinjaFile.init (S "build.bfg")).rule (S "cc")
    (objectifyStrList [S "cc", S "-c", S "$in", S "-o", S "$out"])
    none none false none false

def c2Build : NinjaFile × Option NinjaError :=
  c2Rule.1.build [S "main.o"] (S "cc") [S "main.c"] [] [] []

def c2Out : Option Str := c2Build.1.write

/-- C2: declaring rule `cc` with the command list and then the edge
`build(["main.o"], "cc", ["main.c"])` succeeds, and the serialized output is
some header followed by a `rule cc` block whose body is a single
newline-free `command = ...` line, then exactly one blank line, then the
line `build main.o: cc main.c`, in that order. -/
theorem write_scenario :
    c2Rule.2 = none ∧ c2Build.2 = none ∧
    ∃ header cmdtext : Str, ('\n' ∉ cmdtext) ∧
      c2Out = some (header ++ (S "rule cc\n  command = " ++ cmdtext ++
        (S "\n" ++ (S "\n" ++ (S "build main.o: cc main.c\n" ++ S "\n"))))) := by
  refine ⟨by decide, by decide,
    S "# Do not edit this file! It was automatically generated by bfg9000.\n# Instead, you should edit the source file that created this:\n# build.bfg\n\n",
    S "cc && -c && $$in && -o && $$out", by decide, by decide⟩
